import Mathlib

/-!
Verification development for the tap-tiingo extraction pipeline.

Shallow embedding of the core of the repository:

* `tap_tiingo/client.py`  — `TiingoStream`: `_to_snake_case`, `fetch_with_retry`
  (via the parameters of the `backoff` decorator), `parse_response`, `post_process`.
* `tap_tiingo/streams.py` — `TickerPartitionStream.post_process`, the two
  stream field mappings, `DailyPricesStream.get_url_params`.
* `tap_tiingo/tap.py`     — `TapTiingo.get_cached_tickers` (double-checked
  locking partition cache) and the configuration schema property names.

Python strings are modelled as lists of Unicode code points (`List Nat`);
Python dicts as insertion-ordered association lists with the dict update
semantics made explicit.
-/

/-! ### Key casing: `TiingoStream._to_snake_case` (client.py 105-109)

The Python code runs two `re.sub` passes and then `str.lower()`:

    s1 = re.sub("(.)([A-Z][a-z]+)", r"\1_\2", camel_str)
    return re.sub("([a-z0-9])([A-Z])", r"\1_\2", s1).lower()

`re.sub` scans left to right and replaces non-overlapping matches, resuming
after the end of each match.  Code point 10 is the newline (which `.` does not
match), 65-90 are `A`-`Z`, 97-122 are `a`-`z`, 48-57 are `0`-`9`, and 95 is
the underscore.  `str.lower` is modelled on the ASCII range, which is the
range the two regexes interact with.
-/

/-- Membership in `[A-Z]` -- ASCII uppercase code point. -/
def isUpperAZ (c : Nat) : Bool := decide (65 ≤ c ∧ c ≤ 90)

/-- Membership in `[a-z]` -- ASCII lowercase code point. -/
def isLowerAZ (c : Nat) : Bool := decide (97 ≤ c ∧ c ≤ 122)

/-- Membership in `[a-z0-9]` -- ASCII lowercase or digit code point. -/
def isLowerOrDigit (c : Nat) : Bool := isLowerAZ c || decide (48 ≤ c ∧ c ≤ 57)

/-- Python `str.lower()` applied to one code point (ASCII range). -/
def pyLower (c : Nat) : Nat := if isUpperAZ c then c + 32 else c

/-- Whether the list starts with an `[a-z]` code point (the `[a-z]+` part of
the first regex must match at least one character). -/
def headIsLower : List Nat → Bool
  | [] => false
  | c :: _ => isLowerAZ c

/-- First substitution pass: `re.sub("(.)([A-Z][a-z]+)", r"\1_\2", s)`.
A match is any non-newline character, then an uppercase letter, then a
maximal nonempty run of lowercase letters; the replacement inserts `_`
between the first character and the rest, and scanning resumes after the
match.  `fuel` only bounds the number of scanning steps (each step consumes
at least one character, so the list length suffices); the fuel-exhausted
equation is unreachable. -/
def sub1Aux : Nat → List Nat → List Nat
  | _, [] => []
  | _, [c] => [c]
  | 0, c :: d :: rest => c :: d :: rest
  | fuel + 1, c :: d :: rest =>
    if (c != 10) && isUpperAZ d && headIsLower rest then
      c :: 95 :: d :: (rest.takeWhile isLowerAZ ++ sub1Aux fuel (rest.dropWhile isLowerAZ))
    else
      c :: sub1Aux fuel (d :: rest)

def sub1 (l : List Nat) : List Nat := sub1Aux l.length l

/-- Second substitution pass: `re.sub("([a-z0-9])([A-Z])", r"\1_\2", s1)`.
A match is a lowercase/digit immediately followed by an uppercase letter;
scanning resumes after the match. -/
def sub2 : List Nat → List Nat
  | [] => []
  | [c] => [c]
  | c :: d :: rest =>
    if isLowerOrDigit c && isUpperAZ d then
      c :: 95 :: d :: sub2 rest
    else
      c :: sub2 (d :: rest)

/-- Model of `TiingoStream._to_snake_case` on code points: both passes, then lower. -/
def to_snake_case (l : List Nat) : List Nat :=
  (sub2 (sub1 l)).map pyLower

/-- Code points of a Lean string literal (to state concrete examples). -/
def strCodes (s : String) : List Nat := s.data.map Char.toNat

/-- Version of `_to_snake_case` on Lean strings, used by the response-parsing model. -/
def to_snake_case_str (s : String) : String :=
  String.mk ((to_snake_case (strCodes s)).map Char.ofNat)

/-! ### Python dicts as insertion-ordered association lists

Python dict semantics made explicit: assignment `d[k] = v` updates the value
of the entry holding the key in place (keeping its position) and appends the
pair when the key is absent; lookup returns the value of the first entry with
the key.  Keys of a Python dict are unique; where a proof needs that fact it
takes a `NodupKeys` hypothesis. -/

/-- Lookup `d[k]` / `k in d`: value of the first entry whose key is `k`. -/
def dictGet [DecidableEq κ] (d : List (κ × α)) (k : κ) : Option α :=
  (d.find? (fun p => decide (p.1 = k))).map (fun p => p.2)

/-- Assignment `d[k] = v`: overwrite in place if present, else append. -/
def dictSet [DecidableEq κ] : List (κ × α) → κ → α → List (κ × α)
  | [], k, v => [(k, v)]
  | p :: rest, k, v => if p.1 = k then (k, v) :: rest else p :: dictSet rest k v

/-- The keys of the association list are pairwise distinct (Python dict
invariant). -/
def NodupKeys (d : List (κ × α)) : Prop := (d.map Prod.fst).Nodup

/-! ### Record transform: `TickerPartitionStream.post_process` (streams.py 21-33)

The method requires a context holding a `ticker` key, unconditionally writes
`row["ticker"] = context["ticker"]`, then rebuilds the dict applying the
field mapping of the stream (`_get_field_mapping().get(key, key)`) to each key in
insertion order.  `if not context or "ticker" not in context` is true exactly
when the context is `None`, the empty dict, or lacks the key; for the two
dict cases the `"ticker"` lookup below returns `none`. -/

/-- Model of `self._get_field_mapping().get(key, key)`. -/
def fieldMapping (m : List (String × String)) (k : String) : String :=
  match dictGet m k with
  | some v => v
  | none => k

/-- Model of `TickerMetadataStream._get_field_mapping` (streams.py 64-70). -/
def metadata_field_mapping : List (String × String) :=
  [("startDate", "start_date"), ("endDate", "end_date"),
   ("exchangeCode", "exchange_code")]

/-- Model of `DailyPricesStream._get_field_mapping` (streams.py 107-117). -/
def daily_prices_field_mapping : List (String × String) :=
  [("adjClose", "adj_close"), ("adjHigh", "adj_high"), ("adjLow", "adj_low"),
   ("adjOpen", "adj_open"), ("adjVolume", "adj_volume"), ("divCash", "div_cash"),
   ("splitFactor", "split_factor")]

/-- Model of `TickerPartitionStream.post_process`, parameterized by the field
mapping and generic in the value type of the record. -/
def post_process (m : List (String × String)) (row : List (String × α))
    (context : Option (List (String × α))) : Except String (List (String × α)) :=
  match context with
  | none => Except.error "ticker context is required"
  | some ctx =>
    match dictGet ctx "ticker" with
    | none => Except.error "ticker context is required"
    | some tv =>
      let row2 := dictSet row "ticker" tv
      Except.ok (row2.foldl (fun acc p => dictSet acc (fieldMapping m p.1) p.2) [])

/-! ### JSON decoding with `parse_float=Decimal`: `parse_response`
(client.py 169-191)

`response.json(parse_float=Decimal)` decodes the body; every numeric literal
written in float form (with a fraction and/or exponent part) is handed to
`decimal.Decimal`, which keeps the digits exactly; integer-form literals
become Python ints.  A float-form literal is modelled by its sign, integer
digits, fraction digits and decimal exponent; `Decimal` by a mantissa and a
power-of-ten scale. -/

/-- A `decimal.Decimal` value: `mant * 10 ^ scale`, exact. -/
structure Decimal where
  mant : Int
  scale : Int
deriving DecidableEq, Repr

/-- The rational number a `Decimal` denotes. -/
def Decimal.toRat (d : Decimal) : ℚ := (d.mant : ℚ) * (10 : ℚ) ^ d.scale

/-- A float-form JSON numeric literal `[-]ddd.ddd[e±d]`: sign, the digits
before the point, the digits after the point, and the exponent. -/
structure FloatLit where
  neg : Bool
  intDigits : List Nat
  fracDigits : List Nat
  exp : Int
deriving DecidableEq, Repr

/-- The natural number spelled by a digit string (most significant first). -/
def natOfDigits (l : List Nat) : Nat := l.foldl (fun a d => a * 10 + d) 0

def FloatLit.sign (l : FloatLit) : Int := if l.neg then -1 else 1

/-- The exact rational value the literal denotes. -/
def FloatLit.toRat (l : FloatLit) : ℚ :=
  (l.sign : ℚ) * ((natOfDigits l.intDigits : ℚ)
    + (natOfDigits l.fracDigits : ℚ) / (10 : ℚ) ^ l.fracDigits.length)
    * (10 : ℚ) ^ l.exp

/-- Construction `decimal.Decimal(<literal>)`: all digits into the mantissa, the scale
shifted down by the number of fraction digits.  Exact, no rounding. -/
def Decimal.ofLit (l : FloatLit) : Decimal :=
  ⟨l.sign * (natOfDigits (l.intDigits ++ l.fracDigits) : Int),
   l.exp - (l.fracDigits.length : Int)⟩

/-- A decoded-from-text JSON document, numbers kept as literals. -/
inductive JsonVal where
  | jnull
  | jbool (b : Bool)
  | jstr (s : String)
  | jint (n : Int)
  | jnum (l : FloatLit)
  | jarr (xs : List JsonVal)
  | jobj (kvs : List (String × JsonVal))

/-- The Python value `response.json(parse_float=Decimal)` produces. -/
inductive PyVal where
  | pynone
  | pybool (b : Bool)
  | pystr (s : String)
  | pyint (n : Int)
  | pydec (d : Decimal)
  | pylist (xs : List PyVal)
  | pydict (kvs : List (String × PyVal))

mutual
/-- Python `json` decoding with `parse_float=Decimal`: float-form literals become
exact `Decimal` values, integer-form literals stay integers. -/
def pyDecode : JsonVal → PyVal
  | JsonVal.jnull => PyVal.pynone
  | JsonVal.jbool b => PyVal.pybool b
  | JsonVal.jstr s => PyVal.pystr s
  | JsonVal.jint n => PyVal.pyint n
  | JsonVal.jnum l => PyVal.pydec (Decimal.ofLit l)
  | JsonVal.jarr xs => PyVal.pylist (pyDecodeList xs)
  | JsonVal.jobj kvs => PyVal.pydict (pyDecodeObj kvs)

def pyDecodeList : List JsonVal → List PyVal
  | [] => []
  | x :: xs => pyDecode x :: pyDecodeList xs

def pyDecodeObj : List (String × JsonVal) → List (String × PyVal)
  | [] => []
  | (k, x) :: rest => (k, pyDecode x) :: pyDecodeObj rest
end

/-- Model of the comprehension with `self._to_snake_case(k)` over `record.items()`: rebuild the
dict with snake-cased keys, later keys winning on collision. -/
def snakeRecord (kvs : List (String × PyVal)) : List (String × PyVal) :=
  kvs.foldl (fun acc p => dictSet acc (to_snake_case_str p.1) p.2) []

/-- Python `record.items()` is only available on dicts; a list element that is not a
dict makes the comprehension raise. -/
def asDictKvs : PyVal → Option (List (String × PyVal))
  | PyVal.pydict kvs => some kvs
  | _ => none

def allDictKvs : List PyVal → Option (List (List (String × PyVal)))
  | [] => some []
  | x :: xs =>
    match asDictKvs x, allDictKvs xs with
    | some kvs, some rest => some (kvs :: rest)
    | _, _ => none

/-- Model of `singer_sdk.helpers.jsonpath.extract_jsonpath`, for the only two
expressions the repository uses: `$` (the whole document, one match) and
`$[*]` (every element of an array / every member value of an object, no
match on a scalar). -/
def extract_jsonpath (path : String) (v : PyVal) : List PyVal :=
  if path = "$" then [v]
  else if path = "$[*]" then
    match v with
    | PyVal.pylist xs => xs
    | PyVal.pydict kvs => kvs.map (fun p => p.2)
    | _ => []
  else []

/-- Model of `TiingoStream.parse_response`.  The decoded body is snake-cased when it
is a list of records or a single record; any other shape leaves
`records_snake_case` unassigned, so the `yield from` line raises
`UnboundLocalError`, which the `except` clause logs (redacted) and re-raises:
no records are produced.  A list element without `.items()` likewise
raises. -/
def parse_response (records_jsonpath : String) (body : JsonVal) :
    Except String (List PyVal) :=
  match pyDecode body with
  | PyVal.pylist xs =>
    match allDictKvs xs with
    | some ds =>
      Except.ok (extract_jsonpath records_jsonpath
        (PyVal.pylist (ds.map (fun kvs => PyVal.pydict (snakeRecord kvs)))))
    | none => Except.error "Error parsing response"
  | PyVal.pydict kvs =>
    Except.ok (extract_jsonpath records_jsonpath (PyVal.pydict (snakeRecord kvs)))
  | _ => Except.error "Error parsing response"

/-! ### Retry: `fetch_with_retry` and its `backoff` decorator (client.py 111-146)

    @backoff.on_exception(backoff.expo, (requests.exceptions.RequestException,),
        base=5, max_value=300, jitter=backoff.full_jitter,
        max_tries=12, max_time=1800,
        giveup=lambda e: isinstance(e, HTTPError) and e.response is not None
                         and e.response.status_code not in (429,500,502,503,504))

One simulated outcome per attempt: a transport-level failure (timeout,
connection reset -- a `RequestException` that is not an `HTTPError`), an
HTTP error status (`raise_for_status`), or success.  `backoff` gives up when
the `giveup` predicate holds, when the attempt count reaches `max_tries`, or
when the elapsed time at the start of the attempt reaches `max_time`;
otherwise it sleeps `min(full_jitter(expo wait), max_time - elapsed)` and
retries.  `backoff.expo(base=5)` with the default `factor=1` yields
`5 ** n` capped at `max_value`; `full_jitter` draws uniformly from
`[0, wait]`, modelled by an arbitrary `jitter` sequence clamped to the
pre-jitter wait. -/

inductive FetchOutcome where
  | transportError
  | httpError (status : Nat)
  | success
deriving DecidableEq, Repr

/-- The statuses `(429, 500, 502, 503, 504)` of the `giveup` lambda. -/
def retryable_status_codes : List Nat := [429, 500, 502, 503, 504]

/-- The `giveup` predicate: an HTTP error whose status is outside the
retryable set.  Transport-level failures never give up. -/
def giveup : FetchOutcome → Bool
  | FetchOutcome.httpError s => !(retryable_status_codes.contains s)
  | _ => false

/-- A failure outcome that the policy retries. -/
def isRetryableFailure : FetchOutcome → Bool
  | FetchOutcome.transportError => true
  | FetchOutcome.httpError s => retryable_status_codes.contains s
  | FetchOutcome.success => false

def base_wait : Nat := 5
def max_wait : Nat := 300
def max_tries : Nat := 12
def max_time : Nat := 1800

/-- The pre-jitter wait produced by `backoff.expo(base=5, max_value=300)`
before the `n`-th sleep: `min(5 ** n, 300)`. -/
def expoWait (n : Nat) : Nat := min (base_wait ^ n) max_wait

/-- Result of a `fetch_with_retry` call: how many attempts were made, the
elapsed sleep time, and on failure the last outcome raised. -/
inductive FetchResult where
  | ok (attempts elapsed : Nat)
  | err (attempts elapsed : Nat) (last : FetchOutcome)
deriving DecidableEq, Repr

def FetchResult.attempts : FetchResult → Nat
  | FetchResult.ok a _ => a
  | FetchResult.err a _ _ => a

def FetchResult.elapsed : FetchResult → Nat
  | FetchResult.ok _ e => e
  | FetchResult.err _ e _ => e

/-- The retry loop of `backoff._sync.retry_exception`: attempt, then either
return, give up (predicate, `max_tries`, `max_time`), or sleep the jittered
truncated wait and go again.  `fuel` only feeds the termination checker; it
starts at `max_tries`, which the attempt counter reaches first. -/
def fetchAux (outcomes : Nat → FetchOutcome) (jitter : Nat → Nat) :
    Nat → Nat → Nat → FetchResult
  | 0, tries, elapsed => FetchResult.err tries elapsed FetchOutcome.transportError
  | fuel + 1, tries, elapsed =>
    let o := outcomes tries
    if o = FetchOutcome.success then FetchResult.ok (tries + 1) elapsed
    else if giveup o then FetchResult.err (tries + 1) elapsed o
    else if max_tries ≤ tries + 1 then FetchResult.err (tries + 1) elapsed o
    else if max_time ≤ elapsed then FetchResult.err (tries + 1) elapsed o
    else
      fetchAux outcomes jitter fuel (tries + 1)
        (elapsed + min (min (jitter tries) (expoWait tries)) (max_time - elapsed))

/-- Model of `TiingoStream.fetch_with_retry` against a simulated sequence of attempt
outcomes and a sampled jitter sequence. -/
def fetch_with_retry (outcomes : Nat → FetchOutcome) (jitter : Nat → Nat) :
    FetchResult :=
  fetchAux outcomes jitter max_tries 0 0

/-! ### Partition list: `TapTiingo.get_cached_tickers` (tap.py 66-91) -/

/-- A partition context `{"ticker": t}`. -/
structure Partition where
  ticker : String
deriving DecidableEq, Repr

/-- The shapes the `tickers` setting can take: a string, a list of strings,
or any other JSON value. -/
inductive TickersConfig where
  | strVal (s : String)
  | listVal (l : List String)
  | otherVal
deriving DecidableEq, Repr

/-- The hardcoded fallback used for the `"*"` sentinel (tap.py 80-85). -/
def default_tickers : List Partition :=
  [⟨"AAPL"⟩, ⟨"GOOGL"⟩, ⟨"MSFT"⟩, ⟨"TSLA"⟩]

/-- The computation guarded by the lock in `get_cached_tickers`: `"*"` maps
to the fallback list, a list of strings maps to one partition per ticker in
order, anything else raises `ValueError`. -/
def get_cached_tickers_compute : TickersConfig → Except String (List Partition)
  | TickersConfig.strVal s =>
    if s = "*" then Except.ok default_tickers
    else Except.error "tickers must be star or a list of ticker strings"
  | TickersConfig.listVal l => Except.ok (l.map Partition.mk)
  | TickersConfig.otherVal =>
    Except.error "tickers must be star or a list of ticker strings"

/-! ### Double-checked locking (tap.py 66-91) as an interleaving machine

Each thread runs:

    if self._cached_tickers is not None:      # start: unlocked check
        return self._cached_tickers           #   -> done, no lock taken
    with self._ticker_lock:                   # waitLock -> acquire
        if self._cached_tickers is not None:  # lockedCheck
            return self._cached_tickers       #   -> releasingVal -> done
        ... compute ...                       # computing
        self._cached_tickers = ...            #   ok: store, count += 1
                                              #   error: raise through `with`
    return self._cached_tickers               # releasingRead -> finalRead -> done

`count` counts executions of the compute block.  Attribute reads/writes are
atomic (one shared-state access per transition); the `with` block releases
the lock both on normal exit and on exception. -/

/-- Program counter of one caller of `get_cached_tickers`. -/
inductive TPc where
  | start
  | waitLock
  | lockedCheck
  | computing
  | releasingVal (r : Except String (List Partition))
  | releasingRead
  | finalRead
  | done (r : Except String (List Partition))

/-- Shared state plus the program counter of every thread. -/
structure CState (n : Nat) where
  cache : Option (List Partition)
  lock : Option (Fin n)
  count : Nat
  threads : Fin n → TPc

def updThread (f : Fin n → TPc) (t : Fin n) (p : TPc) : Fin n → TPc :=
  fun u => if u = t then p else f u

/-- All threads at the top of the call, nothing cached, lock free. -/
def initState (n : Nat) : CState n :=
  ⟨none, none, 0, fun _ => TPc.start⟩

/-- One atomic step of thread `t`. -/
inductive DStep (cfg : TickersConfig) (t : Fin n) : CState n → CState n → Prop where
  | startHit (s : CState n) (v : List Partition)
      (h1 : s.threads t = TPc.start) (h2 : s.cache = some v) :
      DStep cfg t s { s with threads := updThread s.threads t (TPc.done (Except.ok v)) }
  | startMiss (s : CState n)
      (h1 : s.threads t = TPc.start) (h2 : s.cache = none) :
      DStep cfg t s { s with threads := updThread s.threads t TPc.waitLock }
  | acquire (s : CState n)
      (h1 : s.threads t = TPc.waitLock) (h2 : s.lock = none) :
      DStep cfg t s { s with lock := some t,
                             threads := updThread s.threads t TPc.lockedCheck }
  | checkHit (s : CState n) (v : List Partition)
      (h1 : s.threads t = TPc.lockedCheck) (h2 : s.cache = some v) :
      DStep cfg t s { s with threads := updThread s.threads t (TPc.releasingVal (Except.ok v)) }
  | checkMiss (s : CState n)
      (h1 : s.threads t = TPc.lockedCheck) (h2 : s.cache = none) :
      DStep cfg t s { s with threads := updThread s.threads t TPc.computing }
  | computeOk (s : CState n) (l : List Partition)
      (h1 : s.threads t = TPc.computing)
      (h2 : get_cached_tickers_compute cfg = Except.ok l) :
      DStep cfg t s { s with cache := some l, count := s.count + 1,
                             threads := updThread s.threads t TPc.releasingRead }
  | computeErr (s : CState n) (msg : String)
      (h1 : s.threads t = TPc.computing)
      (h2 : get_cached_tickers_compute cfg = Except.error msg) :
      DStep cfg t s { s with count := s.count + 1,
                             threads := updThread s.threads t (TPc.releasingVal (Except.error msg)) }
  | releaseVal (s : CState n) (r : Except String (List Partition))
      (h1 : s.threads t = TPc.releasingVal r) :
      DStep cfg t s { s with lock := none, threads := updThread s.threads t (TPc.done r) }
  | releaseRead (s : CState n)
      (h1 : s.threads t = TPc.releasingRead) :
      DStep cfg t s { s with lock := none, threads := updThread s.threads t TPc.finalRead }
  | finalReadStep (s : CState n) (v : List Partition)
      (h1 : s.threads t = TPc.finalRead) (h2 : s.cache = some v) :
      DStep cfg t s { s with threads := updThread s.threads t (TPc.done (Except.ok v)) }

/-- A step of the whole system: some thread moves. -/
def SysStep (cfg : TickersConfig) (s s2 : CState n) : Prop := ∃ t, DStep cfg t s s2

/-- Reachable from the cold-start state. -/
def Reach (cfg : TickersConfig) (s : CState n) : Prop :=
  Relation.ReflTransGen (SysStep cfg) (initState n) s

/-- Program counters that are only occupied while holding the lock. -/
def lockedPc : TPc → Bool
  | TPc.lockedCheck => true
  | TPc.computing => true
  | TPc.releasingVal _ => true
  | TPc.releasingRead => true
  | _ => false

/-! ### URL parameters: `DailyPricesStream.get_url_params` (streams.py 119-128)

The configuration settings that matter here.  The declared schema of the tap
(tap.py 25-64) has no end-date setting at all; `end_date` is carried in the
model so that the behaviour when a user supplies one can be stated - the
code never reads it. -/

structure TapConfig where
  start_date : Option String
  end_date : Option String
deriving DecidableEq, Repr

/-- The property names declared by `TapTiingo.config_jsonschema`
(tap.py 25-64). -/
def config_jsonschema_properties : List String :=
  ["api_key", "tickers", "start_date", "api_url", "user_agent"]

/-- Model of `DailyPricesStream.get_url_params`: reads only
`self.config.get("start_date")` (a falsy value - absent or empty - adds
nothing); the partition context with any replication-state value the SDK
tracks for it, and the page token, are ignored, which the unused parameters
mirror. -/
def get_url_params (cfg : TapConfig) (_replication_key_value : Option String)
    (_next_page_token : Option String) : List (String × String) :=
  match cfg.start_date with
  | some s => if s = "" then [] else [("startDate", s)]
  | none => []
def dclW0 : CState 1 := initState 1
def dclW1 : CState 1 := { dclW0 with threads := updThread dclW0.threads 0 TPc.waitLock }
def dclW2 : CState 1 :=
  { dclW1 with lock := some 0, threads := updThread dclW1.threads 0 TPc.lockedCheck }
def dclW3 : CState 1 := { dclW2 with threads := updThread dclW2.threads 0 TPc.computing }
def dclW4 : CState 1 :=
  { dclW3 with cache := some default_tickers, count := dclW3.count + 1,
               threads := updThread dclW3.threads 0 TPc.releasingRead }
def dclW5 : CState 1 :=
  { dclW4 with lock := none, threads := updThread dclW4.threads 0 TPc.finalRead }
def dclW6 : CState 1 :=
  { dclW5 with threads := updThread dclW5.threads 0 (TPc.done (Except.ok default_tickers)) }


/-- The safety invariant of the double-checked lock, for a configuration
whose computation succeeds with list `L`: lock ownership matches the locked
program counters, a computing thread sees an empty cache, the cache only
ever holds `L`, the compute counter is 0 before the cache is filled and 1
after, and every value being returned is `Except.ok L`. -/
structure DclInv (L : List Partition) (s : CState n) : Prop where
  lockOwn : ∀ t, lockedPc (s.threads t) = true → s.lock = some t
  compNone : ∀ t, s.threads t = TPc.computing → s.cache = none
  cacheVal : ∀ v, s.cache = some v → v = L
  countCache : s.count = if s.cache = none then 0 else 1
  relVal : ∀ t r, s.threads t = TPc.releasingVal r → r = Except.ok L ∧ s.cache ≠ none
  relRead : ∀ t, s.threads t = TPc.releasingRead → s.cache ≠ none
  doneVal : ∀ t r, s.threads t = TPc.done r → r = Except.ok L ∧ s.cache ≠ none


/-! ## Theorems -/

/-! Idempotence machinery: the output of `to_snake_case` contains no ASCII
uppercase letter, and both regex passes are the identity on such strings. -/

theorem isUpperAZ_pyLower (c : Nat) : isUpperAZ (pyLower c) = false := by
  simp only [pyLower, isUpperAZ]
  split
  · simp_all only [decide_eq_true_eq, decide_eq_false_iff_not]
    omega
  · rename_i h
    exact decide_eq_false (fun hp => h (decide_eq_true hp))

theorem pyLower_of_not_upper {c : Nat} (h : isUpperAZ c = false) : pyLower c = c := by
  simp [pyLower, h]

/-- No code point of the list is an ASCII uppercase letter. -/
def NoUpper (l : List Nat) : Prop := ∀ c ∈ l, isUpperAZ c = false

theorem noUpper_map_pyLower (l : List Nat) : NoUpper (l.map pyLower) := by
  intro c hc
  rcases List.mem_map.mp hc with ⟨d, _, rfl⟩
  exact isUpperAZ_pyLower d

theorem sub1Aux_id : ∀ (fuel : Nat) {l : List Nat}, NoUpper l → sub1Aux fuel l = l := by
  intro fuel
  induction fuel with
  | zero =>
    intro l _
    cases l with
    | nil => rfl
    | cons c tail =>
      cases tail with
      | nil => rfl
      | cons d rest => rfl
  | succ fuel ih =>
    intro l h
    cases l with
    | nil => rfl
    | cons c tail =>
      cases tail with
      | nil => rfl
      | cons d rest =>
        have hd : isUpperAZ d = false := h d (by simp)
        have htail : NoUpper (d :: rest) := fun x hx => h x (List.mem_cons_of_mem _ hx)
        rw [sub1Aux, if_neg]
        · rw [ih htail]
        · simp [hd]

theorem sub1_id {l : List Nat} (h : NoUpper l) : sub1 l = l := sub1Aux_id _ h

theorem sub2_id {l : List Nat} (h : NoUpper l) : sub2 l = l := by
  induction l with
  | nil => simp [sub2]
  | cons c tail ih =>
    cases tail with
    | nil => simp [sub2]
    | cons d rest =>
      have hd : isUpperAZ d = false := h d (by simp)
      have htail : NoUpper (d :: rest) := fun x hx => h x (List.mem_cons_of_mem _ hx)
      rw [sub2, if_neg]
      · rw [ih htail]
      · simp [hd]

theorem map_pyLower_id {l : List Nat} (h : NoUpper l) : l.map pyLower = l := by
  induction l with
  | nil => rfl
  | cons c tail ih =>
    have hc : isUpperAZ c = false := h c (by simp)
    have htail : NoUpper tail := fun x hx => h x (List.mem_cons_of_mem _ hx)
    simp [pyLower_of_not_upper hc, ih htail]

theorem to_snake_case_idem (l : List Nat) :
    to_snake_case (to_snake_case l) = to_snake_case l := by
  have h : NoUpper (to_snake_case l) := noUpper_map_pyLower _
  conv_lhs => rw [to_snake_case]
  rw [sub1_id h, sub2_id h, map_pyLower_id h]

theorem dictGet_dictSet [DecidableEq κ] (d : List (κ × α)) (k : κ) (v : α) :
    dictGet (dictSet d k v) k = some v := by
  induction d with
  | nil => simp [dictGet, dictSet]
  | cons p rest ih =>
    by_cases hp : p.1 = k
    · simp [dictGet, dictSet, hp, List.find?]
    · simp only [dictSet, if_neg hp]
      simpa [dictGet, List.find?_cons_of_neg, hp] using ih

theorem dictGet_dictSet_ne [DecidableEq κ] (d : List (κ × α)) (k k' : κ) (v : α)
    (hne : k' ≠ k) : dictGet (dictSet d k v) k' = dictGet d k' := by
  have hkk : ¬ (k = k') := fun h => hne h.symm
  induction d with
  | nil => simp [dictGet, dictSet, List.find?, hkk]
  | cons p rest ih =>
    by_cases hp : p.1 = k
    · have hp' : ¬ p.1 = k' := by rw [hp]; exact hkk
      simp [dictGet, dictSet, hp, hp', List.find?, hkk]
    · simp only [dictSet, if_neg hp]
      by_cases hq : p.1 = k'
      · simp [dictGet, List.find?, hq]
      · simpa [dictGet, List.find?, hq] using ih

theorem mem_dictSet_self [DecidableEq κ] (d : List (κ × α)) (k : κ) (v : α) :
    (k, v) ∈ dictSet d k v := by
  induction d with
  | nil => simp [dictSet]
  | cons p rest ih =>
    by_cases hp : p.1 = k
    · simp [dictSet, hp]
    · simp [dictSet, hp, ih]

theorem dictSet_entry_unique [DecidableEq κ] {d : List (κ × α)} {k : κ} {v : α}
    (hd : NodupKeys d) :
    ∀ p ∈ dictSet d k v, p.1 = k → p.2 = v := by
  induction d with
  | nil =>
    intro p hp hk
    simp [dictSet] at hp
    rw [hp]
  | cons q rest ih =>
    intro p hp hk
    by_cases hq : q.1 = k
    · simp only [dictSet, if_pos hq, List.mem_cons] at hp
      rcases hp with rfl | hp
      · rfl
      · exfalso
        have hnotin : q.1 ∉ rest.map Prod.fst := by
          have := hd
          simp only [NodupKeys, List.map_cons, List.nodup_cons] at this
          exact this.1
        exact hnotin (by rw [hq, ← hk]; exact List.mem_map_of_mem _ hp)
    · simp only [dictSet, if_neg hq, List.mem_cons] at hp
      rcases hp with rfl | hp
      · exact absurd hk hq
      · have hrest : NodupKeys rest := by
          have := hd
          simp only [NodupKeys, List.map_cons, List.nodup_cons] at this
          exact this.2
        exact ih hrest p hp hk

theorem dictGet_mem [DecidableEq κ] {d : List (κ × α)} {k : κ} {v : α}
    (h : dictGet d k = some v) : (k, v) ∈ d := by
  unfold dictGet at h
  cases hf : d.find? (fun p => decide (p.1 = k)) with
  | none => rw [hf] at h; simp at h
  | some p =>
    rw [hf] at h
    simp only [Option.map_some'] at h
    have hmem := List.mem_of_find?_eq_some hf
    have hkey := List.find?_some hf
    simp only [decide_eq_true_eq] at hkey
    cases p with
    | mk a b =>
      obtain ⟨rfl, rfl⟩ : a = k ∧ b = v := by
        constructor
        · exact hkey
        · simpa using h
      exact hmem


/-! ### Small lookup facts used by several claims -/

theorem dictGet_singleton_ne [DecidableEq κ] (k k' : κ) (v : α) (h : ¬ k = k') :
    dictGet [(k, v)] k' = none := by
  simp [dictGet, List.find?, h]

/-- C5. The key-casing transformation is idempotent on every code-point
string, and maps `adjClose` to `adj_close` and `splitFactor` to
`split_factor`. -/
theorem claim_C5_to_snake_case_idempotent :
    (∀ l : List Nat, to_snake_case (to_snake_case l) = to_snake_case l)
    ∧ to_snake_case (strCodes "adjClose") = strCodes "adj_close"
    ∧ to_snake_case (strCodes "splitFactor") = strCodes "split_factor" :=
  ⟨to_snake_case_idem, by decide, by decide⟩

/-- C4. `get_cached_tickers` resolves the `"*"` sentinel to the fixed
fallback partition list, maps an explicit list of tickers to one partition
per ticker in order, and fails on any other tickers configuration. -/
theorem claim_C4_partition_resolution :
    get_cached_tickers_compute (TickersConfig.strVal "*") = Except.ok default_tickers
    ∧ (∀ l, get_cached_tickers_compute (TickersConfig.listVal l)
        = Except.ok (l.map Partition.mk))
    ∧ (∀ s, s ≠ "*" →
        get_cached_tickers_compute (TickersConfig.strVal s)
          = Except.error "tickers must be star or a list of ticker strings")
    ∧ get_cached_tickers_compute TickersConfig.otherVal
        = Except.error "tickers must be star or a list of ticker strings" := by
  refine ⟨rfl, fun l => rfl, fun s hs => ?_, rfl⟩
  simp [get_cached_tickers_compute, hs]

/-- Witness for C4 at a concrete non-sentinel, non-list configuration. -/
theorem claim_C4_witness :
    get_cached_tickers_compute (TickersConfig.strVal "AAPL")
      = Except.error "tickers must be star or a list of ticker strings" :=
  claim_C4_partition_resolution.2.2.1 "AAPL" (by decide)

/-- C1 counterexample: with a stored replication-state value `2024-06-01`
and configured start date `2023-01-01`, the built parameters carry the
configured start date, not the replication-state value the claim
prescribes. -/
theorem claim_C1_counterexample :
    dictGet (get_url_params ⟨some "2023-01-01", none⟩ (some "2024-06-01") none) "startDate"
      = some "2023-01-01"
    ∧ dictGet (get_url_params ⟨some "2023-01-01", none⟩ (some "2024-06-01") none) "startDate"
      ≠ some "2024-06-01" := by
  refine ⟨rfl, by decide⟩

/-- C1 amended: the starting value for the incremental key is the globally
configured start date whenever one is present and non-empty; otherwise the
lower bound is omitted; the replication-state value is never consulted (the
parameters do not depend on it). -/
theorem claim_C1_start_value (cfg : TapConfig) (rv rv2 tok : Option String) :
    get_url_params cfg rv tok = get_url_params cfg rv2 tok
    ∧ (∀ s, cfg.start_date = some s → s ≠ "" →
        dictGet (get_url_params cfg rv tok) "startDate" = some s)
    ∧ (cfg.start_date = none → get_url_params cfg rv tok = [])
    ∧ (cfg.start_date = some "" → get_url_params cfg rv tok = []) := by
  refine ⟨rfl, fun s hs hne => ?_, fun h => ?_, fun h => ?_⟩
  · simp [get_url_params, hs, hne, dictGet, List.find?]
  · simp [get_url_params, h]
  · simp [get_url_params, h]

/-- Witness for C1 at concrete configurations. -/
theorem claim_C1_witness :
    dictGet (get_url_params ⟨some "2023-01-01", none⟩ none none) "startDate"
      = some "2023-01-01"
    ∧ get_url_params ⟨none, none⟩ none none = [] :=
  ⟨(claim_C1_start_value ⟨some "2023-01-01", none⟩ none none none).2.1 "2023-01-01" rfl
      (by decide),
   (claim_C1_start_value ⟨none, none⟩ none none none).2.2.1 rfl⟩

/-- C9 counterexample: with an end date configured, the built parameters do
not contain `endDate`. -/
theorem claim_C9_counterexample :
    dictGet (get_url_params ⟨some "2023-01-01", some "2024-01-01"⟩ none none) "endDate" = none
    ∧ ¬ dictGet (get_url_params ⟨some "2023-01-01", some "2024-01-01"⟩ none none) "endDate"
        = some "2024-01-01" := by
  refine ⟨rfl, by decide⟩

/-- C9 amended: the built request parameters never include `endDate` (only
`startDate` is ever set), and the declared configuration schema has no
end-date property at all. -/
theorem claim_C9_no_end_date (cfg : TapConfig) (rv tok : Option String) :
    dictGet (get_url_params cfg rv tok) "endDate" = none
    ∧ (∀ p ∈ get_url_params cfg rv tok, p.1 = "startDate")
    ∧ "end_date" ∉ config_jsonschema_properties
    ∧ "endDate" ∉ config_jsonschema_properties := by
  refine ⟨?_, ?_, by decide, by decide⟩
  · cases h : cfg.start_date with
    | none => simp [get_url_params, h, dictGet]
    | some s =>
      by_cases hs : s = ""
      · simp [get_url_params, h, hs, dictGet]
      · simp only [get_url_params, h, if_neg hs]
        exact dictGet_singleton_ne _ _ _ (by decide)
  · cases h : cfg.start_date with
    | none => simp [get_url_params, h]
    | some s =>
      by_cases hs : s = ""
      · simp [get_url_params, h, hs]
      · simp [get_url_params, h, hs]

/-- Witness for C9 at a concrete configuration carrying an end date. -/
theorem claim_C9_witness :
    dictGet (get_url_params ⟨some "2023-01-01", some "2024-01-01"⟩ none none) "endDate" = none
    ∧ ("startDate", "2023-01-01").1 = "startDate" :=
  ⟨(claim_C9_no_end_date ⟨some "2023-01-01", some "2024-01-01"⟩ none none).1,
   (claim_C9_no_end_date ⟨some "2023-01-01", some "2024-01-01"⟩ none none).2.1
     ("startDate", "2023-01-01") (by decide)⟩

/-- C7. Transform with a missing context, or one lacking a `ticker` entry,
errors and never returns a record. -/
theorem claim_C7_missing_context (m : List (String × String))
    (row ctx : List (String × α)) (hctx : dictGet ctx "ticker" = none) :
    post_process m row none = Except.error "ticker context is required"
    ∧ post_process m row (some ctx) = Except.error "ticker context is required" := by
  refine ⟨rfl, ?_⟩
  simp [post_process, hctx]

/-- Witness for C7: a concrete price row against `partition=None` and
against an empty context. -/
theorem claim_C7_witness :
    post_process daily_prices_field_mapping [("close", "189.95")] none
      = Except.error "ticker context is required"
    ∧ post_process daily_prices_field_mapping [("close", "189.95")] (some [])
      = Except.error "ticker context is required" :=
  claim_C7_missing_context daily_prices_field_mapping [("close", "189.95")] [] rfl

/-- C10. A decoded body that is neither a list nor a dict (a bare number,
string, boolean or null) makes `parse_response` raise - no record list is
produced, for any stream jsonpath. -/
theorem claim_C10_scalar_body_errors (path : String) :
    (∀ n : Int, parse_response path (JsonVal.jint n) = Except.error "Error parsing response")
    ∧ (∀ s, parse_response path (JsonVal.jstr s) = Except.error "Error parsing response")
    ∧ parse_response path JsonVal.jnull = Except.error "Error parsing response"
    ∧ (∀ b, parse_response path (JsonVal.jbool b) = Except.error "Error parsing response")
    ∧ (∀ l, parse_response path (JsonVal.jnum l) = Except.error "Error parsing response") :=
  ⟨fun _ => rfl, fun _ => rfl, rfl, fun _ => rfl, fun _ => rfl⟩

/-! ### C6: the transform always stamps the partition ticker -/

theorem dictGet_fold_transform (fm : String → String)
    (hm : ∀ x, fm x = "ticker" → x = "ticker")
    (hmt : fm "ticker" = "ticker") (tv : α) :
    ∀ (l acc : List (String × α)),
      (∀ p ∈ l, p.1 = "ticker" → p.2 = tv) →
      ((∃ p ∈ l, p.1 = "ticker") ∨ dictGet acc "ticker" = some tv) →
      dictGet (l.foldl (fun a p => dictSet a (fm p.1) p.2) acc) "ticker" = some tv := by
  intro l
  induction l with
  | nil =>
    intro acc _ hex
    rcases hex with ⟨p, hp, _⟩ | h
    · simp at hp
    · simpa using h
  | cons p rest ih =>
    intro acc hall hex
    rw [List.foldl_cons]
    by_cases hpt : p.1 = "ticker"
    · have hv : p.2 = tv := hall p (by simp) hpt
      apply ih
      · intro q hq hqt
        exact hall q (by simp [hq]) hqt
      · right
        rw [hpt, hmt, hv]
        exact dictGet_dictSet acc "ticker" tv
    · have hft : fm p.1 ≠ "ticker" := fun hcon => hpt (hm _ hcon)
      apply ih
      · intro q hq hqt
        exact hall q (by simp [hq]) hqt
      · rcases hex with ⟨q, hq, hqt⟩ | h
        · left
          rcases List.mem_cons.mp hq with rfl | hq2
          · exact absurd hqt hpt
          · exact ⟨q, hq2, hqt⟩
        · right
          rw [dictGet_dictSet_ne acc (fm p.1) "ticker" p.2 (fun hcon => hft hcon.symm)]
          exact h

/-- Neither stream-specific field mapping renames any key to `ticker`, and
both leave `ticker` itself alone. -/
theorem daily_mapping_ticker_safe :
    (∀ x, fieldMapping daily_prices_field_mapping x = "ticker" → x = "ticker")
    ∧ fieldMapping daily_prices_field_mapping "ticker" = "ticker" := by
  constructor
  · intro x h
    unfold fieldMapping at h
    cases hg : dictGet daily_prices_field_mapping x with
    | none => rw [hg] at h; exact h
    | some v =>
      rw [hg] at h
      subst h
      have hmem := dictGet_mem hg
      simp only [daily_prices_field_mapping, List.mem_cons,
        List.not_mem_nil, or_false] at hmem
      rcases hmem with h1 | h1 | h1 | h1 | h1 | h1 | h1 <;>
        (injection h1 with ha hb; exact absurd hb (by decide))
  · rfl

theorem metadata_mapping_ticker_safe :
    (∀ x, fieldMapping metadata_field_mapping x = "ticker" → x = "ticker")
    ∧ fieldMapping metadata_field_mapping "ticker" = "ticker" := by
  constructor
  · intro x h
    unfold fieldMapping at h
    cases hg : dictGet metadata_field_mapping x with
    | none => rw [hg] at h; exact h
    | some v =>
      rw [hg] at h
      subst h
      have hmem := dictGet_mem hg
      simp only [metadata_field_mapping, List.mem_cons,
        List.not_mem_nil, or_false] at hmem
      rcases hmem with h1 | h1 | h1 <;>
        (injection h1 with ha hb; exact absurd hb (by decide))
  · rfl

/-- C6. Whenever the partition context carries a ticker, the transform
succeeds and the `ticker` entry of the output record is the ticker of the partition,
overwriting any same-named field of the raw record (for any field mapping
that does not itself rename keys to or from `ticker`, which both streams
satisfy per `daily_mapping_ticker_safe` / `metadata_mapping_ticker_safe`). -/
theorem claim_C6_ticker_overwritten (m : List (String × String))
    (row ctx : List (String × α)) (tv : α)
    (hrow : NodupKeys row)
    (hm : ∀ x, fieldMapping m x = "ticker" → x = "ticker")
    (hmt : fieldMapping m "ticker" = "ticker")
    (hctx : dictGet ctx "ticker" = some tv) :
    ∃ out, post_process m row (some ctx) = Except.ok out
      ∧ dictGet out "ticker" = some tv := by
  have hpp : post_process m row (some ctx)
      = Except.ok ((dictSet row "ticker" tv).foldl
          (fun acc p => dictSet acc (fieldMapping m p.1) p.2) []) := by
    simp [post_process, hctx]
  refine ⟨_, hpp, ?_⟩
  exact dictGet_fold_transform (fieldMapping m) hm hmt tv (dictSet row "ticker" tv) []
    (dictSet_entry_unique hrow)
    (Or.inl ⟨("ticker", tv), mem_dictSet_self row "ticker" tv, rfl⟩)

/-- Witness for C6: a price row that already carries a conflicting `ticker`
field is overwritten with the ticker of the partition. -/
theorem claim_C6_witness :
    ∃ out, post_process daily_prices_field_mapping
        [("ticker", "STALE"), ("adjClose", "1.25")]
        (some [("ticker", "AAPL")]) = Except.ok out
      ∧ dictGet out "ticker" = some "AAPL" :=
  claim_C6_ticker_overwritten daily_prices_field_mapping
    [("ticker", "STALE"), ("adjClose", "1.25")] [("ticker", "AAPL")] "AAPL"
    (by unfold NodupKeys; decide)
    daily_mapping_ticker_safe.1 daily_mapping_ticker_safe.2 rfl

/-! ### C2: the retry policy -/

theorem retryable_not_success_and_not_giveup {o : FetchOutcome}
    (h : isRetryableFailure o = true) :
    o ≠ FetchOutcome.success ∧ giveup o = false := by
  cases o with
  | transportError => exact ⟨fun hcon => FetchOutcome.noConfusion hcon, rfl⟩
  | httpError s =>
    refine ⟨fun hcon => FetchOutcome.noConfusion hcon, ?_⟩
    simp only [isRetryableFailure] at h
    simp only [giveup]
    rw [h]
    rfl
  | success => simp [isRetryableFailure] at h

theorem fetchAux_attempts_le (outcomes : Nat → FetchOutcome) (jitter : Nat → Nat) :
    ∀ fuel tries elapsed,
      (fetchAux outcomes jitter fuel tries elapsed).attempts ≤ tries + fuel := by
  intro fuel
  induction fuel with
  | zero =>
    intro tries elapsed
    simp [fetchAux, FetchResult.attempts]
  | succ fuel ih =>
    intro tries elapsed
    simp only [fetchAux]
    split_ifs with h1 h2 h3 h4
    · simp only [FetchResult.attempts]; omega
    · simp only [FetchResult.attempts]; omega
    · simp only [FetchResult.attempts]; omega
    · simp only [FetchResult.attempts]; omega
    · exact Nat.le_trans (ih (tries + 1) _) (by omega)

theorem fetchAux_elapsed_le (outcomes : Nat → FetchOutcome) (jitter : Nat → Nat) :
    ∀ fuel tries elapsed, elapsed ≤ max_time →
      (fetchAux outcomes jitter fuel tries elapsed).elapsed ≤ max_time := by
  intro fuel
  induction fuel with
  | zero =>
    intro tries elapsed he
    simpa [fetchAux, FetchResult.elapsed] using he
  | succ fuel ih =>
    intro tries elapsed he
    simp only [fetchAux]
    split_ifs with h1 h2 h3 h4
    · simpa [FetchResult.elapsed] using he
    · simpa [FetchResult.elapsed] using he
    · simpa [FetchResult.elapsed] using he
    · simpa [FetchResult.elapsed] using he
    · apply ih
      have hmin := Nat.min_le_right (min (jitter tries) (expoWait tries)) (max_time - elapsed)
      omega

theorem fetchAux_retryable (outcomes : Nat → FetchOutcome) (jitter : Nat → Nat) :
    ∀ fuel tries elapsed i, tries ≤ i →
      i + 1 < (fetchAux outcomes jitter fuel tries elapsed).attempts →
      isRetryableFailure (outcomes i) = true := by
  intro fuel
  induction fuel with
  | zero =>
    intro tries elapsed i hti hlt
    simp [fetchAux, FetchResult.attempts] at hlt
    omega
  | succ fuel ih =>
    intro tries elapsed i hti hlt
    simp only [fetchAux] at hlt
    split_ifs at hlt with h1 h2 h3 h4
    · simp only [FetchResult.attempts] at hlt; omega
    · simp only [FetchResult.attempts] at hlt; omega
    · simp only [FetchResult.attempts] at hlt; omega
    · simp only [FetchResult.attempts] at hlt; omega
    · by_cases hit : i = tries
      · subst hit
        cases ho : outcomes i with
        | transportError => rfl
        | httpError s =>
          rw [ho] at h2
          simp only [giveup, Bool.not_eq_true'] at h2
          simp only [isRetryableFailure]
          simpa using h2
        | success => exact absurd ho h1
      · exact ih (tries + 1) _ i (by omega) hlt

theorem fetchAux_success_zero (outcomes : Nat → FetchOutcome) :
    ∀ k fuel tries, k + 1 ≤ fuel → tries + k + 1 ≤ max_tries →
      (∀ i, i < k → isRetryableFailure (outcomes (tries + i)) = true) →
      outcomes (tries + k) = FetchOutcome.success →
      fetchAux outcomes (fun _ => 0) fuel tries 0 = FetchResult.ok (tries + 1 + k) 0 := by
  intro k
  induction k with
  | zero =>
    intro fuel tries hfuel htries hall hsucc
    cases fuel with
    | zero => omega
    | succ fuel =>
      simp only [fetchAux]
      rw [if_pos (by simpa using hsucc)]
  | succ k ih =>
    intro fuel tries hfuel htries hall hsucc
    cases fuel with
    | zero => omega
    | succ fuel =>
      have h0 : isRetryableFailure (outcomes tries) = true := by
        have := hall 0 (by omega)
        simpa using this
      obtain ⟨hns, hng⟩ := retryable_not_success_and_not_giveup h0
      have haligned : outcomes (tries + 1 + k) = FetchOutcome.success := by
        rw [show tries + 1 + k = tries + (k + 1) from by omega]
        exact hsucc
      have hallshift : ∀ i, i < k → isRetryableFailure (outcomes (tries + 1 + i)) = true := by
        intro i hi
        rw [show tries + 1 + i = tries + (i + 1) from by omega]
        exact hall (i + 1) (by omega)
      simp only [fetchAux]
      rw [if_neg hns, if_neg (by simp [hng]),
        if_neg (show ¬ max_tries ≤ tries + 1 from by omega),
        if_neg (show ¬ max_time ≤ 0 from by simp [max_time])]
      have hzero : (0 : Nat) + min (min 0 (expoWait tries)) (max_time - 0) = 0 := by
        simp
      rw [hzero]
      have := ih fuel (tries + 1) (by omega) (by omega) hallshift haligned
      rw [this]
      congr 1
      omega

/-- C2. The retry policy of `fetch_with_retry`: at most 12 attempts, within
the 1800-second budget; every retried failure was a transport
error or a status in {429, 500, 502, 503, 504}; any other HTTP error status
means exactly one attempt before failing; and a run of retryable failures
followed by success is retried through to the success. -/
theorem claim_C2_retry_policy (outcomes : Nat → FetchOutcome) :
    (∀ jitter, (fetch_with_retry outcomes jitter).attempts ≤ max_tries)
    ∧ (∀ jitter, (fetch_with_retry outcomes jitter).elapsed ≤ max_time)
    ∧ (∀ jitter i, i + 1 < (fetch_with_retry outcomes jitter).attempts →
        isRetryableFailure (outcomes i) = true)
    ∧ (∀ jitter s, retryable_status_codes.contains s = false →
        outcomes 0 = FetchOutcome.httpError s →
        fetch_with_retry outcomes jitter
          = FetchResult.err 1 0 (FetchOutcome.httpError s))
    ∧ (∀ k, k + 1 ≤ max_tries →
        (∀ i, i < k → isRetryableFailure (outcomes i) = true) →
        outcomes k = FetchOutcome.success →
        fetch_with_retry outcomes (fun _ => 0) = FetchResult.ok (k + 1) 0) := by
  refine ⟨?_, ?_, ?_, ?_, ?_⟩
  · intro jitter
    simpa using fetchAux_attempts_le outcomes jitter max_tries 0 0
  · intro jitter
    exact fetchAux_elapsed_le outcomes jitter max_tries 0 0 (by simp [max_time])
  · intro jitter i hlt
    exact fetchAux_retryable outcomes jitter max_tries 0 0 i (Nat.zero_le i) hlt
  · intro jitter s hs ho
    show fetchAux outcomes jitter max_tries 0 0 = _
    rw [show max_tries = 11 + 1 from rfl]
    simp only [fetchAux, ho]
    rw [if_neg (fun hcon => FetchOutcome.noConfusion hcon),
      if_pos (show giveup (FetchOutcome.httpError s) = true from by
        simp only [giveup]
        rw [hs]
        rfl)]
  · intro k hk hall hsucc
    have := fetchAux_success_zero outcomes k max_tries 0 (by omega)
      (by omega) (by simpa using hall) (by simpa using hsucc)
    rw [show (0:Nat) + 1 + k = k + 1 from by omega] at this
    exact this

/-- Witness for C2: three 503 responses then a 200 retries through to the
fourth attempt; a 404 fails on the first attempt. -/
theorem claim_C2_witness :
    fetch_with_retry (fun i => if i < 3 then FetchOutcome.httpError 503 else FetchOutcome.success)
        (fun _ => 0) = FetchResult.ok 4 0
    ∧ fetch_with_retry (fun _ => FetchOutcome.httpError 404) (fun _ => 0)
        = FetchResult.err 1 0 (FetchOutcome.httpError 404) := by
  constructor
  · exact (claim_C2_retry_policy _).2.2.2.2 3 (by decide)
      (fun i hi => by
        interval_cases i <;> decide)
      (by decide)
  · exact (claim_C2_retry_policy _).2.2.2.1 (fun _ => 0) 404 (by decide) rfl

/-! ### C8: decimal-exact parsing and the two accepted body shapes -/

theorem foldl_digits_init (l : List Nat) :
    ∀ a : Nat, l.foldl (fun x d => x * 10 + d) a = a * 10 ^ l.length + natOfDigits l := by
  induction l with
  | nil =>
    intro a
    simp [natOfDigits]
  | cons d rest ih =>
    intro a
    rw [List.foldl_cons, ih (a * 10 + d)]
    have hd : natOfDigits (d :: rest) = d * 10 ^ rest.length + natOfDigits rest := by
      unfold natOfDigits
      rw [List.foldl_cons]
      rw [show 0 * 10 + d = d from by omega]
      rw [ih d]
      rfl
    rw [hd]
    simp only [List.length_cons, pow_succ]
    ring

theorem natOfDigits_append (a b : List Nat) :
    natOfDigits (a ++ b) = natOfDigits a * 10 ^ b.length + natOfDigits b := by
  unfold natOfDigits
  rw [List.foldl_append]
  exact foldl_digits_init b _

theorem Decimal.ofLit_exact (l : FloatLit) :
    (Decimal.ofLit l).toRat = l.toRat := by
  unfold Decimal.toRat Decimal.ofLit FloatLit.toRat
  rw [natOfDigits_append]
  push_cast
  rw [zpow_sub₀ (by norm_num : (10:ℚ) ≠ 0), zpow_natCast]
  have h10 : ((10:ℚ) ^ l.fracDigits.length) ≠ 0 := by positivity
  field_simp

theorem allDictKvs_decode_objs (objs : List (List (String × JsonVal))) :
    allDictKvs (pyDecodeList (objs.map JsonVal.jobj)) = some (objs.map pyDecodeObj) := by
  induction objs with
  | nil => rfl
  | cons kvs rest ih =>
    rw [List.map_cons]
    show allDictKvs (pyDecode (JsonVal.jobj kvs) :: pyDecodeList (rest.map JsonVal.jobj))
      = _
    rw [show pyDecode (JsonVal.jobj kvs) = PyVal.pydict (pyDecodeObj kvs) from rfl]
    unfold allDictKvs
    rw [ih]
    rfl

theorem parse_response_list (path : String) (xs : List JsonVal) :
    parse_response path (JsonVal.jarr xs)
      = match allDictKvs (pyDecodeList xs) with
        | some ds => Except.ok (extract_jsonpath path
            (PyVal.pylist (ds.map (fun kvs => PyVal.pydict (snakeRecord kvs)))))
        | none => Except.error "Error parsing response" := rfl

/-- C8. `parse_response` decodes float-form numeric literals into exact
decimals (the decoded value equals the mathematical value of the literal - no
binary rounding), accepts a single object body (one record, with the `$`
jsonpath the metadata stream declares for it) and an array-of-objects body
(one record per element, with the `$[*]` jsonpath the price streams declare),
snake-casing every top-level key of each record. -/
theorem claim_C8_parse_response :
    (∀ l : FloatLit, (Decimal.ofLit l).toRat = l.toRat)
    ∧ (∀ lit : FloatLit,
        pyDecode (JsonVal.jnum lit) = PyVal.pydec (Decimal.ofLit lit))
    ∧ (∀ kvs, parse_response "$" (JsonVal.jobj kvs)
        = Except.ok [PyVal.pydict (snakeRecord (pyDecodeObj kvs))])
    ∧ (∀ objs : List (List (String × JsonVal)),
        parse_response "$[*]" (JsonVal.jarr (objs.map JsonVal.jobj))
          = Except.ok (objs.map (fun kvs => PyVal.pydict (snakeRecord (pyDecodeObj kvs))))) := by
  refine ⟨Decimal.ofLit_exact, fun _ => rfl, fun kvs => rfl, ?_⟩
  intro objs
  rw [parse_response_list, allDictKvs_decode_objs]
  show Except.ok (extract_jsonpath "$[*]"
      (PyVal.pylist ((objs.map pyDecodeObj).map (fun kvs => PyVal.pydict (snakeRecord kvs))))) = _
  rw [show extract_jsonpath "$[*]"
      (PyVal.pylist ((objs.map pyDecodeObj).map (fun kvs => PyVal.pydict (snakeRecord kvs))))
      = (objs.map pyDecodeObj).map (fun kvs => PyVal.pydict (snakeRecord kvs)) from rfl]
  rw [List.map_map]
  rfl

/-! ### C3: the double-checked lock computes the partition list exactly once -/

theorem updThread_eq (f : Fin n → TPc) (t : Fin n) (p : TPc) : updThread f t p t = p := by
  simp [updThread]

theorem updThread_ne (f : Fin n → TPc) (t u : Fin n) (p : TPc) (h : u ≠ t) :
    updThread f t p u = f u := by
  simp [updThread, h]

theorem dclInv_init (L : List Partition) (n : Nat) : DclInv L (initState n) := by
  refine ⟨?_, ?_, ?_, ?_, ?_, ?_, ?_⟩
  · intro t h; simp [initState, lockedPc] at h
  · intro t h; simp [initState] at h
  · intro v h; simp [initState] at h
  · simp [initState]
  · intro t r h; simp [initState] at h
  · intro t h; simp [initState] at h
  · intro t r h; simp [initState] at h

/-- Invariant preservation for a step that only changes the program
counter of the moving thread, provided the new program counter satisfies the
thread-indexed clauses. -/
theorem dclInv_updThread {L : List Partition} {s : CState n} (hinv : DclInv L s)
    (t : Fin n) (pc : TPc)
    (hlock : lockedPc pc = true → s.lock = some t)
    (hcomp : pc = TPc.computing → s.cache = none)
    (hrel : ∀ r, pc = TPc.releasingVal r → r = Except.ok L ∧ s.cache ≠ none)
    (hrr : pc = TPc.releasingRead → s.cache ≠ none)
    (hdone : ∀ r, pc = TPc.done r → r = Except.ok L ∧ s.cache ≠ none) :
    DclInv L { s with threads := updThread s.threads t pc } := by
  refine ⟨?_, ?_, ?_, ?_, ?_, ?_, ?_⟩
  · intro u hu
    dsimp only at hu
    by_cases hut : u = t
    · subst hut; rw [updThread_eq] at hu; exact hlock hu
    · rw [updThread_ne _ _ _ _ hut] at hu; exact hinv.lockOwn u hu
  · intro u hu
    dsimp only at hu
    by_cases hut : u = t
    · subst hut; rw [updThread_eq] at hu; exact hcomp hu
    · rw [updThread_ne _ _ _ _ hut] at hu; exact hinv.compNone u hu
  · exact hinv.cacheVal
  · exact hinv.countCache
  · intro u r hu
    dsimp only at hu
    by_cases hut : u = t
    · subst hut; rw [updThread_eq] at hu; exact hrel r hu
    · rw [updThread_ne _ _ _ _ hut] at hu; exact hinv.relVal u r hu
  · intro u hu
    dsimp only at hu
    by_cases hut : u = t
    · subst hut; rw [updThread_eq] at hu; exact hrr hu
    · rw [updThread_ne _ _ _ _ hut] at hu; exact hinv.relRead u hu
  · intro u r hu
    dsimp only at hu
    by_cases hut : u = t
    · subst hut; rw [updThread_eq] at hu; exact hdone r hu
    · rw [updThread_ne _ _ _ _ hut] at hu; exact hinv.doneVal u r hu

theorem dclInv_step {cfg : TickersConfig} {L : List Partition}
    (hcfg : get_cached_tickers_compute cfg = Except.ok L)
    {t : Fin n} {s s2 : CState n}
    (hinv : DclInv L s) (hstep : DStep cfg t s s2) : DclInv L s2 := by
  cases hstep with
  | startHit v h1 h2 =>
    have hv : v = L := hinv.cacheVal v h2
    refine dclInv_updThread hinv t _ ?_ ?_ ?_ ?_ ?_
    · intro h; simp [lockedPc] at h
    · intro h; exact TPc.noConfusion h
    · intro r h; exact TPc.noConfusion h
    · intro h; exact TPc.noConfusion h
    · intro r h
      have hr : Except.ok v = r := by injection h
      rw [← hr, hv]
      exact ⟨rfl, by rw [h2]; exact fun hcon => Option.noConfusion hcon⟩
  | startMiss h1 h2 =>
    refine dclInv_updThread hinv t _ ?_ ?_ ?_ ?_ ?_
    · intro h; simp [lockedPc] at h
    · intro h; exact TPc.noConfusion h
    · intro r h; exact TPc.noConfusion h
    · intro h; exact TPc.noConfusion h
    · intro r h; exact TPc.noConfusion h
  | acquire h1 h2 =>
    refine ⟨?_, ?_, ?_, ?_, ?_, ?_, ?_⟩
    · intro u hu
      dsimp only at hu
      by_cases hut : u = t
      · subst hut; rfl
      · rw [updThread_ne _ _ _ _ hut] at hu
        have := hinv.lockOwn u hu
        rw [h2] at this
        exact Option.noConfusion this
    · intro u hu
      dsimp only at hu
      by_cases hut : u = t
      · subst hut; rw [updThread_eq] at hu; exact TPc.noConfusion hu
      · rw [updThread_ne _ _ _ _ hut] at hu; exact hinv.compNone u hu
    · exact hinv.cacheVal
    · exact hinv.countCache
    · intro u r hu
      dsimp only at hu
      by_cases hut : u = t
      · subst hut; rw [updThread_eq] at hu; exact TPc.noConfusion hu
      · rw [updThread_ne _ _ _ _ hut] at hu; exact hinv.relVal u r hu
    · intro u hu
      dsimp only at hu
      by_cases hut : u = t
      · subst hut; rw [updThread_eq] at hu; exact TPc.noConfusion hu
      · rw [updThread_ne _ _ _ _ hut] at hu; exact hinv.relRead u hu
    · intro u r hu
      dsimp only at hu
      by_cases hut : u = t
      · subst hut; rw [updThread_eq] at hu; exact TPc.noConfusion hu
      · rw [updThread_ne _ _ _ _ hut] at hu; exact hinv.doneVal u r hu
  | checkHit v h1 h2 =>
    have hv : v = L := hinv.cacheVal v h2
    refine dclInv_updThread hinv t _ ?_ ?_ ?_ ?_ ?_
    · intro _
      exact hinv.lockOwn t (by rw [h1]; rfl)
    · intro h; exact TPc.noConfusion h
    · intro r h
      have hr : Except.ok v = r := by injection h
      rw [← hr, hv]
      exact ⟨rfl, by rw [h2]; exact fun hcon => Option.noConfusion hcon⟩
    · intro h; exact TPc.noConfusion h
    · intro r h; exact TPc.noConfusion h
  | checkMiss h1 h2 =>
    refine dclInv_updThread hinv t _ ?_ ?_ ?_ ?_ ?_
    · intro _
      exact hinv.lockOwn t (by rw [h1]; rfl)
    · intro _; exact h2
    · intro r h; exact TPc.noConfusion h
    · intro h; exact TPc.noConfusion h
    · intro r h; exact TPc.noConfusion h
  | computeOk l h1 h2 =>
    have hl : l = L := by
      rw [hcfg] at h2
      injection h2 with h3
      exact h3.symm
    have hnone : s.cache = none := hinv.compNone t h1
    have hcount : s.count = 0 := by
      have := hinv.countCache
      rw [hnone] at this
      simpa using this
    have hlockt : s.lock = some t := hinv.lockOwn t (by rw [h1]; rfl)
    refine ⟨?_, ?_, ?_, ?_, ?_, ?_, ?_⟩
    · intro u hu
      dsimp only at hu
      by_cases hut : u = t
      · subst hut; exact hlockt
      · rw [updThread_ne _ _ _ _ hut] at hu
        exact hinv.lockOwn u hu
    · intro u hu
      dsimp only at hu
      by_cases hut : u = t
      · subst hut; rw [updThread_eq] at hu; exact TPc.noConfusion hu
      · rw [updThread_ne _ _ _ _ hut] at hu
        have := hinv.lockOwn u (by rw [hu]; rfl)
        rw [hlockt] at this
        injection this with h4
        exact absurd h4.symm hut
    · intro v hv
      dsimp only at hv
      have : l = v := by injection hv
      rw [← this, hl]
    · dsimp only
      rw [hcount]
      simp
    · intro u r hu
      dsimp only at hu
      by_cases hut : u = t
      · subst hut; rw [updThread_eq] at hu; exact TPc.noConfusion hu
      · rw [updThread_ne _ _ _ _ hut] at hu
        exact ⟨(hinv.relVal u r hu).1, fun hcon => Option.noConfusion hcon⟩
    · intro u hu
      intro hcon
      dsimp only at hcon
      exact Option.noConfusion hcon
    · intro u r hu
      dsimp only at hu
      by_cases hut : u = t
      · subst hut; rw [updThread_eq] at hu; exact TPc.noConfusion hu
      · rw [updThread_ne _ _ _ _ hut] at hu
        exact ⟨(hinv.doneVal u r hu).1, fun hcon => Option.noConfusion hcon⟩
  | computeErr msg h1 h2 =>
    rw [hcfg] at h2
    exact Except.noConfusion h2
  | releaseVal r h1 =>
    obtain ⟨hr, hc⟩ := hinv.relVal t r h1
    have hlockt : s.lock = some t := hinv.lockOwn t (by rw [h1]; rfl)
    refine ⟨?_, ?_, ?_, ?_, ?_, ?_, ?_⟩
    · intro u hu
      dsimp only at hu
      by_cases hut : u = t
      · subst hut; rw [updThread_eq] at hu; simp [lockedPc] at hu
      · rw [updThread_ne _ _ _ _ hut] at hu
        have := hinv.lockOwn u hu
        rw [hlockt] at this
        injection this with h4
        exact absurd h4.symm hut
    · intro u hu
      dsimp only at hu
      by_cases hut : u = t
      · subst hut; rw [updThread_eq] at hu; exact TPc.noConfusion hu
      · rw [updThread_ne _ _ _ _ hut] at hu; exact hinv.compNone u hu
    · exact hinv.cacheVal
    · exact hinv.countCache
    · intro u r2 hu
      dsimp only at hu
      by_cases hut : u = t
      · subst hut; rw [updThread_eq] at hu; exact TPc.noConfusion hu
      · rw [updThread_ne _ _ _ _ hut] at hu; exact hinv.relVal u r2 hu
    · intro u hu
      dsimp only at hu
      by_cases hut : u = t
      · subst hut; rw [updThread_eq] at hu; exact TPc.noConfusion hu
      · rw [updThread_ne _ _ _ _ hut] at hu; exact hinv.relRead u hu
    · intro u r2 hu
      dsimp only at hu
      by_cases hut : u = t
      · subst hut
        rw [updThread_eq] at hu
        have hr2 : r = r2 := by injection hu
        rw [← hr2]
        exact ⟨hr, hc⟩
      · rw [updThread_ne _ _ _ _ hut] at hu; exact hinv.doneVal u r2 hu
  | releaseRead h1 =>
    have hc : s.cache ≠ none := hinv.relRead t h1
    have hlockt : s.lock = some t := hinv.lockOwn t (by rw [h1]; rfl)
    refine ⟨?_, ?_, ?_, ?_, ?_, ?_, ?_⟩
    · intro u hu
      dsimp only at hu
      by_cases hut : u = t
      · subst hut; rw [updThread_eq] at hu; simp [lockedPc] at hu
      · rw [updThread_ne _ _ _ _ hut] at hu
        have := hinv.lockOwn u hu
        rw [hlockt] at this
        injection this with h4
        exact absurd h4.symm hut
    · intro u hu
      dsimp only at hu
      by_cases hut : u = t
      · subst hut; rw [updThread_eq] at hu; exact TPc.noConfusion hu
      · rw [updThread_ne _ _ _ _ hut] at hu; exact hinv.compNone u hu
    · exact hinv.cacheVal
    · exact hinv.countCache
    · intro u r hu
      dsimp only at hu
      by_cases hut : u = t
      · subst hut; rw [updThread_eq] at hu; exact TPc.noConfusion hu
      · rw [updThread_ne _ _ _ _ hut] at hu; exact hinv.relVal u r hu
    · intro u hu
      dsimp only at hu
      by_cases hut : u = t
      · subst hut; rw [updThread_eq] at hu; exact TPc.noConfusion hu
      · rw [updThread_ne _ _ _ _ hut] at hu; exact hinv.relRead u hu
    · intro u r hu
      dsimp only at hu
      by_cases hut : u = t
      · subst hut; rw [updThread_eq] at hu; exact TPc.noConfusion hu
      · rw [updThread_ne _ _ _ _ hut] at hu; exact hinv.doneVal u r hu
  | finalReadStep v h1 h2 =>
    have hv : v = L := hinv.cacheVal v h2
    refine dclInv_updThread hinv t _ ?_ ?_ ?_ ?_ ?_
    · intro h; simp [lockedPc] at h
    · intro h; exact TPc.noConfusion h
    · intro r h; exact TPc.noConfusion h
    · intro h; exact TPc.noConfusion h
    · intro r h
      have hr : Except.ok v = r := by injection h
      rw [← hr, hv]
      exact ⟨rfl, by rw [h2]; exact fun hcon => Option.noConfusion hcon⟩

theorem dcl_reach_inv {cfg : TickersConfig} {L : List Partition}
    (hcfg : get_cached_tickers_compute cfg = Except.ok L)
    {s : CState n} (hs : Reach cfg s) : DclInv L s := by
  induction hs with
  | refl => exact dclInv_init L n
  | tail hreach hstep ih =>
    obtain ⟨t, hstep⟩ := hstep
    exact dclInv_step hcfg ih hstep

/-- C3. In every reachable state of the double-checked lock (configuration
whose computation yields `L`): the compute block has run at most once; once
any caller has returned, it has run exactly once and every returned value is
the same `Except.ok L`; and a caller that starts while the cache is warm
returns the cached value in one step, leaving the lock (and everything else)
untouched. -/
theorem claim_C3_double_checked_lock {n : Nat} (cfg : TickersConfig)
    (L : List Partition) (hcfg : get_cached_tickers_compute cfg = Except.ok L)
    (s : CState n) (hs : Reach cfg s) :
    s.count ≤ 1
    ∧ (∀ t r, s.threads t = TPc.done r → s.count = 1 ∧ r = Except.ok L)
    ∧ (∀ t v s2, s.threads t = TPc.start → s.cache = some v → DStep cfg t s s2 →
        s2.threads t = TPc.done (Except.ok v) ∧ s2.lock = s.lock
          ∧ s2.cache = s.cache ∧ s2.count = s.count) := by
  have hinv : DclInv L s := dcl_reach_inv hcfg hs
  refine ⟨?_, ?_, ?_⟩
  · rw [hinv.countCache]
    split
    · omega
    · omega
  · intro t r h
    obtain ⟨hr, hc⟩ := hinv.doneVal t r h
    refine ⟨?_, hr⟩
    rw [hinv.countCache]
    simp [hc]
  · intro t v s2 hstart hcache hstep
    cases hstep with
    | startHit v2 h1 h2 =>
      rw [hcache] at h2
      have hv : v = v2 := by injection h2
      subst hv
      exact ⟨updThread_eq _ _ _, rfl, rfl, rfl⟩
    | startMiss h1 h2 =>
      rw [hcache] at h2
      exact Option.noConfusion h2
    | acquire h1 h2 => rw [hstart] at h1; exact TPc.noConfusion h1
    | checkHit v2 h1 h2 => rw [hstart] at h1; exact TPc.noConfusion h1
    | checkMiss h1 h2 => rw [hstart] at h1; exact TPc.noConfusion h1
    | computeOk l h1 h2 => rw [hstart] at h1; exact TPc.noConfusion h1
    | computeErr msg h1 h2 => rw [hstart] at h1; exact TPc.noConfusion h1
    | releaseVal r2 h1 => rw [hstart] at h1; exact TPc.noConfusion h1
    | releaseRead h1 => rw [hstart] at h1; exact TPc.noConfusion h1
    | finalReadStep v2 h1 h2 => rw [hstart] at h1; exact TPc.noConfusion h1

/-- A concrete complete run of one caller from the cold-start state, through
acquire, compute, release and the final re-read. -/
theorem reach_dclW6 : Reach (TickersConfig.strVal "*") dclW6 := by
  have s1 : SysStep (TickersConfig.strVal "*") dclW0 dclW1 :=
    ⟨0, DStep.startMiss dclW0 rfl rfl⟩
  have s2 : SysStep (TickersConfig.strVal "*") dclW1 dclW2 :=
    ⟨0, DStep.acquire dclW1 rfl rfl⟩
  have s3 : SysStep (TickersConfig.strVal "*") dclW2 dclW3 :=
    ⟨0, DStep.checkMiss dclW2 rfl rfl⟩
  have s4 : SysStep (TickersConfig.strVal "*") dclW3 dclW4 :=
    ⟨0, DStep.computeOk dclW3 default_tickers rfl rfl⟩
  have s5 : SysStep (TickersConfig.strVal "*") dclW4 dclW5 :=
    ⟨0, DStep.releaseRead dclW4 rfl⟩
  have s6 : SysStep (TickersConfig.strVal "*") dclW5 dclW6 :=
    ⟨0, DStep.finalReadStep dclW5 default_tickers rfl rfl⟩
  exact Relation.ReflTransGen.head s1 (Relation.ReflTransGen.head s2
    (Relation.ReflTransGen.head s3 (Relation.ReflTransGen.head s4
      (Relation.ReflTransGen.head s5 (Relation.ReflTransGen.head s6
        Relation.ReflTransGen.refl)))))

/-- Witness for C3 at the concrete reachable state `dclW6`. -/
theorem claim_C3_witness :
    dclW6.count ≤ 1
    ∧ (∀ t r, dclW6.threads t = TPc.done r →
        dclW6.count = 1 ∧ r = Except.ok default_tickers)
    ∧ (∀ t v s2, dclW6.threads t = TPc.start → dclW6.cache = some v →
        DStep (TickersConfig.strVal "*") t dclW6 s2 →
        s2.threads t = TPc.done (Except.ok v) ∧ s2.lock = dclW6.lock
          ∧ s2.cache = dclW6.cache ∧ s2.count = dclW6.count) :=
  claim_C3_double_checked_lock (TickersConfig.strVal "*") default_tickers rfl
    dclW6 reach_dclW6
